import Mathlib

/-!
# Verification of the mpz correlated-memory / QuickSilver core

Shallow embedding of the `mpz` repository's correlated memory stores
(`mpz-memory-core/src/correlated/{keys,macs}.rs`), the QuickSilver prover and
verifier (`mpz-zk-core/src/quicksilver/{prover,verifier,mod}.rs`) and the
circuit-level ZK engine (`mpz-zk-core/src/{prover,verifier}.rs`).

`Block` (the 128-bit `GF(2^128)` word from `mpz-core`) and the generic arena
`Store<T>` (`mpz-memory-core/src/store.rs`) are not part of the sources and are
modelled from the specification, as noted on each definition.
-/

namespace Mpz

/-- Modelled from the spec: a `Block` is a 128-bit value; we represent it as a
natural number `< 2^128` (the bits are the coefficients of the `GF(2^128)`
polynomial, bit 0 = the LSB / "pointer bit"). -/
abbrev Block := Nat

/-- Modelled from the spec: `Block::lsb`, the pointer bit. -/
def lsb (b : Block) : Bool := b.testBit 0

/-- Modelled from the spec: `Block::xor_lsb(bit)` XORs `bit` into the LSB. -/
def xorLsb (b : Block) (bit : Bool) : Block := b ^^^ (if bit then 1 else 0)

/-- Modelled from the spec: `Block::set_lsb(b)`. -/
def setLsb (b : Block) (bit : Bool) : Block :=
  if bit then b ||| 1 else b &&& (2 ^ 128 - 2)

/-- Modelled from the spec: `Block::ONE`. -/
def blockONE : Block := 1

/-- Modelled from the spec: `Block::MINIS_ONE` [sic], all ones except a zero
LSB. -/
def blockMINIS_ONE : Block := 2 ^ 128 - 2

/-- Modelled from the spec: carryless multiplication of the polynomials `a` and
`b` (no reduction); bit `i` of `b` contributes `a <<< i`. -/
def clmul (a b : Nat) : Nat :=
  (List.range 128).foldl (fun acc i => if b.testBit i then acc ^^^ (a <<< i) else acc) 0

/-- Modelled from the spec: reduction of a polynomial of degree `< 255` modulo
the AES-GCM polynomial `x^128 + x^7 + x^2 + x + 1` (`2^128 + 0x87`), clearing
the bits from 254 down to 128. -/
def gfReduce (x : Nat) : Nat :=
  (List.range 127).reverse.foldl
    (fun acc k => if acc.testBit (128 + k) then acc ^^^ ((2 ^ 128 + 0x87) <<< k) else acc) x

/-- Modelled from the spec: `Block::gfmul`, carryless multiplication in
`GF(2^128)` modulo the AES-GCM polynomial. -/
def gfmul (a b : Block) : Block := gfReduce (clmul a b)

/-- Modelled from the spec: helper for `Block::powers`; emits `n` successive
multiples `cur, cur·x, cur·x², …`. -/
def powersAux (x cur : Block) : Nat → List Block
  | 0 => []
  | n + 1 => cur :: powersAux x (gfmul cur x) n

/-- Modelled from the spec: `Block::powers(x, n) = [x, x², …, xⁿ]`, each entry
obtained from the previous one by multiplying with `x`
(`powers[i] = x^(i+1)`). -/
def blockPowers (x : Block) (n : Nat) : List Block := powersAux x x n

/-- Modelled from the spec: `Block::inn_prdt_red(a, b) = ⊕ᵢ aᵢ·bᵢ` in
`GF(2^128)`. -/
def innPrdtRed (a b : List Block) : Block :=
  (List.zipWith gfmul a b).foldl (· ^^^ ·) 0

/-- Modelled from the spec: `Block::to_bytes`, the canonical 16-byte
little-endian representation. -/
def blockToBytes (b : Block) : List Nat :=
  (List.range 16).map (fun i => (b >>> (8 * i)) % 256)

/-- Concatenated canonical bytes of a list of blocks (the byte stream fed to a
hasher by repeated `update(&block.to_bytes())` calls). -/
def blocksToBytes (bs : List Block) : List Nat := bs.flatMap blockToBytes

/-! ## Bit packing (`mpz-zk-core/src/quicksilver/mod.rs`) -/

/-- Numeric value of a bool, as in `*b as u8`. -/
def bitVal (b : Bool) : Nat := if b then 1 else 0

/-- Number of bytes produced by `bools_to_bytes`:
`bv.len() / 8 + offset` with `offset = if bv.len() % 8 == 0 { 0 } else { 1 }`. -/
def numBytes (n : Nat) : Nat := n / 8 + (if n % 8 = 0 then 0 else 1)

/-- Byte `j` of the packing produced by `bools_to_bytes`: the source ORs bit
`i` into byte `i / 8` at position `7 - (i % 8)` of a zero-initialized vector,
so byte `j` collects exactly bits `8j, …, 8j+7` (absent bits contribute 0).
The OR-ed contributions occupy pairwise disjoint bit positions, so the
accumulation is written as a sum. -/
def byteAt (bv : List Bool) (j : Nat) : Nat :=
  (bitVal (bv.getD (8 * j) false)) <<< 7 +
  (bitVal (bv.getD (8 * j + 1) false)) <<< 6 +
  (bitVal (bv.getD (8 * j + 2) false)) <<< 5 +
  (bitVal (bv.getD (8 * j + 3) false)) <<< 4 +
  (bitVal (bv.getD (8 * j + 4) false)) <<< 3 +
  (bitVal (bv.getD (8 * j + 5) false)) <<< 2 +
  (bitVal (bv.getD (8 * j + 6) false)) <<< 1 +
  (bitVal (bv.getD (8 * j + 7) false))

/-- `bools_to_bytes` from `quicksilver/mod.rs`, MSB-first packing of eight
bools per byte, zero-padded to a whole byte. -/
def boolsToBytes (bv : List Bool) : List Nat :=
  (List.range (numBytes bv.length)).map (byteAt bv)

/-- The eight bools of one byte, MSB first:
`((byte >> (7 - i)) & 1) != 0` for `i = 0, …, 7`. -/
def byteBits (byte : Nat) : List Bool :=
  (List.range 8).map (fun i => byte.testBit (7 - i))

/-- `bytes_to_bools` from `quicksilver/mod.rs`. -/
def bytesToBools (v : List Nat) : List Bool := v.flatMap byteBits

/-! ## C1: `Verify::verify` (`mpz-zk-core/src/verifier.rs`) -/

/-- `Verify::verify(u, v)` from `mpz-zk-core/src/verifier.rs`. The source reads

```
if self.w != u ^ self.delta.gfmul(v) {
    // todo
}
Ok(())
```

i.e. the branch taken when the check equation fails is empty and the function
returns `Ok(())` unconditionally. -/
def verifyUV (w delta u v : Block) : Except Unit Unit :=
  if w ≠ u ^^^ gfmul delta v then
    Except.ok ()
  else
    Except.ok ()

/-! ## C2: coefficient computation in `Check::execute`
(`mpz-zk-core/src/prover.rs` and `mpz-zk-core/src/verifier.rs`) -/

/-- The loop body of `Check::execute`:
`for _ in 1..len { chi = chi.gfmul(chi); chis.push(chi); }` —
each coefficient is the square of the previous one. -/
def checkChisAux (chi : Block) : Nat → List Block
  | 0 => []
  | n + 1 => chi :: checkChisAux (gfmul chi chi) n

/-- The coefficient vector computed by `Check::execute` for a window of `n`
triples: `chis.push(chi)` followed by the squaring loop (identical in
`prover.rs` and `verifier.rs`). -/
def checkChis (chi : Block) (n : Nat) : List Block :=
  chi :: checkChisAux (gfmul chi chi) (n - 1)

/-! ## C3: INV gates (`mpz-zk-core/src/prover.rs`, `mpz-zk-core/src/verifier.rs`) -/

/-- The prover's `Gate::Inv` branch in `ProverIter::next`:
`let mut mac = self.buffer[x.id()]; mac.xor_lsb(true); self.buffer[z.id()] = mac;` -/
def proverInvGate (m : Block) : Block := xorLsb m true

/-- The verifier's `Gate::Inv` branch in `VerifierConsumer::next`:
`let x = self.buffer[node_x.id()]; self.buffer[node_z.id()] = x;` —
the key is copied unchanged (`delta` is not read). -/
def verifierInvGate (k : Block) (_delta : Block) : Block := k

/-! ## C4: mask bits hashed into the transcript before deriving `χ`
(`mpz-zk-core/src/quicksilver/prover.rs` line 134,
 `mpz-zk-core/src/quicksilver/verifier.rs` line 139) -/

/-- The bytes the QuickSilver prover feeds to its transcript hasher before
deriving the coefficient seed:
`self.hasher.update(&bools_to_bytes(&self.buf_hash[..self.check_counter]));` -/
def proverMaskHashInput (bufHash : List Bool) (counter : Nat) : List Nat :=
  boolsToBytes (bufHash.take counter)

/-- The bytes the QuickSilver verifier feeds to its transcript hasher before
deriving the coefficient seed:
`self.hasher.update(&bools_to_bytes(&self.buf_hash[..=self.check_counter]));` —
note the inclusive `..=`, which takes `check_counter + 1` bools (and panics
when `check_counter` equals the buffer length). -/
def verifierMaskHashInput (bufHash : List Bool) (counter : Nat) : List Nat :=
  boolsToBytes (bufHash.take (counter + 1))


/-! ## Correlated memory stores (`mpz-memory-core/src/correlated/{keys,macs}.rs`)

The generic arena `Store<T>` (declared in `mpz-memory-core/src/lib.rs` as
`pub mod store` but not among the sources) is modelled from the spec: a
contiguous vector of values plus a `RangeSet` of initialized indices, with
`try_get` failing on any uninitialized index and `InvalidSlice` on an
out-of-arena range. `RangeSet`s are modelled as finite sets of indices
(`Finset Nat`); the canonical disjoint sorted ranges iterated by
`iter_ranges` are passed around explicitly as `List Slice`. -/

/-- `Slice { ptr, size }` from `mpz-memory-core/src/lib.rs`, the half-open
range `[ptr, ptr + size)`. -/
structure Slice where
  ptr : Nat
  size : Nat
deriving DecidableEq

/-- The index set of a slice (its `to_range()` as a set). -/
def Slice.idx (s : Slice) : Finset Nat := Finset.Ico s.ptr (s.ptr + s.size)

/-- Union of the `KeyStoreError` / `MacStoreError` / `StoreError`
taxonomies. -/
inductive StoreErr where
  | InvalidSlice
  | Uninit
  | AlreadySet
  | AlreadyAssigned
  | Verify
deriving DecidableEq

/-- Decidable equality for `Except` results (not provided by core). -/
instance {ε α : Type _} [DecidableEq ε] [DecidableEq α] : DecidableEq (Except ε α) := fun a b =>
  match a, b with
  | .error e, .error f =>
    if h : e = f then isTrue (by rw [h]) else isFalse (fun hc => h (Except.error.inj hc))
  | .ok x, .ok y =>
    if h : x = y then isTrue (by rw [h]) else isFalse (fun hc => h (Except.ok.inj hc))
  | .error _, .ok _ => isFalse (fun hc => Except.noConfusion hc)
  | .ok _, .error _ => isFalse (fun hc => Except.noConfusion hc)

/-- Modelled from the spec: the linear arena `Store<Block>`. -/
structure Store where
  data : List Block
  inited : Finset Nat
deriving DecidableEq

/-- Modelled from the spec: `Store::is_set`, whether every index of the slice
is initialized. -/
def Store.isSet (st : Store) (s : Slice) : Prop := s.idx ⊆ st.inited

instance (st : Store) (s : Slice) : Decidable (st.isSet s) := by
  unfold Store.isSet; infer_instance

/-- The blocks of a slice (`&data[ptr..ptr + size]`). -/
def Store.sliceData (st : Store) (s : Slice) : List Block :=
  (st.data.drop s.ptr).take s.size

/-- Modelled from the spec: `Store::try_get`, returning the values of a slice,
`InvalidSlice` if the range is out of the arena and `Uninit` if any index is
uninitialized. -/
def Store.tryGet (st : Store) (s : Slice) : Except StoreErr (List Block) :=
  if s.ptr + s.size ≤ st.data.length then
    if st.isSet s then .ok (st.sliceData s) else .error .Uninit
  else .error .InvalidSlice

/-- Modelled from the spec: `Store::alloc(len)`, appending `len`
uninitialized entries. -/
def Store.alloc (st : Store) (len : Nat) : Slice × Store :=
  (⟨st.data.length, len⟩,
   { st with data := st.data ++ List.replicate len 0 })

/-- Splice `vals` into `data` starting at `ptr`. -/
def spliceAt (data : List Block) (ptr : Nat) (vals : List Block) : List Block :=
  data.take ptr ++ vals ++ data.drop (ptr + vals.length)

/-- Modelled from the spec: `Store::try_set`, erroring with `AlreadySet` if any
index is already initialized. -/
def Store.trySet (st : Store) (s : Slice) (vals : List Block) :
    Except StoreErr Unit × Store :=
  if s.ptr + s.size ≤ st.data.length then
    if Disjoint s.idx st.inited then
      (.ok (), { data := spliceAt st.data s.ptr vals, inited := st.inited ∪ s.idx })
    else (.error .AlreadySet, st)
  else (.error .InvalidSlice, st)

/-- The in-place LSB adjustment loop shared by `KeyStore::adjust` and
`MacStore::try_adjust`: walking the arena from position `ptr`, XOR each
adjust bit into the LSB of the corresponding block
(`key.xor_lsb(*bit)` zipped over the mutable slice). -/
def adjustData : List Block → Nat → List Bool → List Block
  | [], _, _ => []
  | b :: rest, p + 1, adj => b :: adjustData rest p adj
  | b :: rest, 0, a :: adjRest => xorLsb b a :: adjustData rest 0 adjRest
  | b :: rest, 0, [] => b :: rest

/-- `KeyStore` from `correlated/keys.rs`: the key arena, the global
correlation `delta` and the `used` range set. -/
structure KeyStore where
  keys : Store
  delta : Block
  used : Finset Nat
deriving DecidableEq

/-- `KeyStore::is_used`: `!slice.to_range().is_disjoint(&self.used)`. -/
def KeyStore.isUsed (st : KeyStore) (s : Slice) : Prop := ¬ Disjoint s.idx st.used

instance (st : KeyStore) (s : Slice) : Decidable (st.isUsed s) := by
  unfold KeyStore.isUsed; infer_instance

/-- One MAC: `if *bit { key ^ delta } else { key ^ ZERO }` from
`KeyStore::authenticate`. -/
def authOne (delta : Block) (bit : Bool) (key : Block) : Block :=
  if bit then key ^^^ delta else key ^^^ 0

/-- `KeyStore::authenticate(slice, data)`. The source first asserts
`slice.size == data.len()` (modelled as `none` = panic), then errors with
`AlreadyAssigned` if the slice overlaps `used`, with `Uninit` if any key is
unset, and otherwise marks the slice used and yields `K_i ^ (x_i * delta)`. -/
def KeyStore.authenticate (st : KeyStore) (s : Slice) (data : List Bool) :
    Option (Except StoreErr (List Block) × KeyStore) :=
  if s.size = data.length then
    some (
      if st.isUsed s then (.error .AlreadyAssigned, st)
      else if ¬ st.keys.isSet s then (.error .Uninit, st)
      else (.ok (List.zipWith (authOne st.delta) data (st.keys.sliceData s)),
            { st with used := st.used ∪ s.idx }))
  else none

/-- `KeyStore::oblivious_transfer(slice)`: same error checks as
`authenticate`, marks the slice used and returns the raw keys. -/
def KeyStore.obliviousTransfer (st : KeyStore) (s : Slice) :
    Except StoreErr (List Block) × KeyStore :=
  if st.isUsed s then (.error .AlreadyAssigned, st)
  else if ¬ st.keys.isSet s then (.error .Uninit, st)
  else (.ok (st.keys.sliceData s), { st with used := st.used ∪ s.idx })

/-- `KeyStore::adjust(slice, adjust)`: asserts matching lengths (`none` =
panic), then `try_get_slice_mut` (modelled from the spec: `InvalidSlice` /
`Uninit` checks) and XORs each adjust bit into the LSB of its key. -/
def KeyStore.adjust (st : KeyStore) (s : Slice) (adj : List Bool) :
    Option (Except StoreErr Unit × KeyStore) :=
  if s.size = adj.length then
    some (
      if s.ptr + s.size ≤ st.keys.data.length then
        if st.keys.isSet s then
          (.ok (), { st with
            keys := { st.keys with data := adjustData st.keys.data s.ptr adj } })
        else (.error .Uninit, st)
      else (.error .InvalidSlice, st))
  else none

/-- `KeyStore::try_set`. -/
def KeyStore.trySetKeys (st : KeyStore) (s : Slice) (vals : List Block) :
    Except StoreErr Unit × KeyStore :=
  let (r, keys) := st.keys.trySet s vals
  (r, { st with keys := keys })

/-- Gathering loop over the canonical ranges: `try_get` each range in order
and concatenate (shared shape of `KeyStore::verify` and `MacStore::prove`). -/
def gather (st : Store) (ranges : List Slice) : Except StoreErr (List Block) :=
  match ranges with
  | [] => .ok []
  | r :: rest => do
    let ks ← st.tryGet r
    let tl ← gather st rest
    .ok (ks ++ tl)

/-- The truth bits recovered by `KeyStore::verify`:
`value = key.lsb() ^ *mac_bit`. -/
def reconBits (keys : List Block) (bits : List Bool) : List Bool :=
  List.zipWith (fun k m => xor (lsb k) m) keys bits

/-- The MACs reconstructed by `KeyStore::verify`:
`expected_mac = key ^ (value * delta)`. -/
def reconMacs (delta : Block) (keys : List Block) (bits : List Bool) : List Block :=
  List.zipWith (fun k m => if xor (lsb k) m then k ^^^ delta else k ^^^ 0) keys bits

/-- `KeyStore::verify(ranges, bits, proof)`, parameterized by the hash
function `H` (BLAKE3 in the source, an external crate). The source asserts
`ranges.len() == bits.len()` (modelled as `none` = panic), walks the ranges in
canonical order reconstructing each MAC and hashing its canonical bytes, and
only after the hash comparison succeeds overwrites `bits` in place
(`bits.copy_from_bitslice(&data)`). The result pairs the returned
`Result` with the final contents of `bits`. The source's single interleaved
loop (gather, reconstruct, hash per range with a running `idx` offset) is
written here as gather-then-zip over the concatenation, which produces the
same byte stream and the same data bits. -/
def KeyStore.verify (H : List Nat → Nat) (st : KeyStore) (ranges : List Slice)
    (bits : List Bool) (proof : Nat) :
    Option (Except StoreErr Unit × List Bool) :=
  if (ranges.map Slice.size).sum = bits.length then
    some (
      match gather st.keys ranges with
      | .error e => (.error e, bits)
      | .ok keys =>
        if H (blocksToBytes (reconMacs st.delta keys bits)) = proof then
          (.ok (), reconBits keys bits)
        else (.error .Verify, bits))
  else none

/-- `MacStore` from `correlated/macs.rs`: the MAC arena (no delta). -/
structure MacStore where
  macs : Store
deriving DecidableEq

/-- `MacStore::try_adjust(slice, adjust)`: same shape as `KeyStore::adjust`. -/
def MacStore.tryAdjust (st : MacStore) (s : Slice) (adj : List Bool) :
    Option (Except StoreErr Unit × MacStore) :=
  if s.size = adj.length then
    some (
      if s.ptr + s.size ≤ st.macs.data.length then
        if st.macs.isSet s then
          (.ok (), { macs := { st.macs with data := adjustData st.macs.data s.ptr adj } })
        else (.error .Uninit, st)
      else (.error .InvalidSlice, st))
  else none

/-- `MacStore::prove(ranges)`, parameterized by the hash function `H`: walks
the ranges in canonical order collecting `mac.lsb()` into the bit vector and
each MAC's canonical bytes into the hasher. -/
def MacStore.prove (H : List Nat → Nat) (st : MacStore) (ranges : List Slice) :
    Except StoreErr (List Bool × Nat) :=
  (gather st.macs ranges).map (fun macs => (macs.map lsb, H (blocksToBytes macs)))

/-! ## Operation language over `KeyStore` (for the C7 usage protocol) -/

/-- The `KeyStore` operations a caller can interleave between two
assignments. -/
inductive KOp where
  | auth (s : Slice) (data : List Bool)
  | ot (s : Slice)
  | adj (s : Slice) (adj : List Bool)
  | setKeys (s : Slice) (vals : List Block)
  | allocOp (len : Nat)

/-- The store after one operation. A panicking call (length-mismatch assert)
aborts before touching the store, so it is modelled as leaving the state
unchanged. -/
def KeyStore.step (st : KeyStore) (op : KOp) : KeyStore :=
  match op with
  | .auth s d => match st.authenticate s d with
    | some (_, st') => st'
    | none => st
  | .ot s => (st.obliviousTransfer s).2
  | .adj s a => match st.adjust s a with
    | some (_, st') => st'
    | none => st
  | .setKeys s vals => (st.trySetKeys s vals).2
  | .allocOp len => { st with keys := (st.keys.alloc len).2 }

/-- The store after a sequence of operations. -/
def KeyStore.run (st : KeyStore) (ops : List KOp) : KeyStore :=
  ops.foldl KeyStore.step st


end Mpz

namespace Mpz

/-! ## Theorems for C1–C4 -/

set_option maxRecDepth 4000

/-- C1: the claim states that for any `(U, V)` with `W ≠ U ⊕ Δ·V` the protocol
is rejecting (the checked status becomes false or an error is returned). This
is false for `Verify::verify`: at `W = 0`, `Δ = 3`, `U = 1`, `V = 0` the check
equation is violated (`U ⊕ Δ·V = 1 ≠ 0 = W`) yet `verify` returns `Ok(())` —
the rejection branch in the source is an empty `// todo` block. -/
theorem c1_verify_accepts_violating_uv :
    (0 : Block) ≠ 1 ^^^ gfmul 3 0 ∧ verifyUV 0 3 1 0 = Except.ok () := by
  constructor
  · decide
  · rfl

/-- C2: the claim states that the `i`-th coefficient of the consistency check
is `χ^i`, each obtained by multiplying the previous coefficient by `χ`. The
code instead squares the running coefficient (`chi = chi.gfmul(chi)`), giving
`χ^(2^(i-1))`. At `χ = 2` (the polynomial `x`) and a window of `n = 3`
triples, the code's third coefficient is `x⁴ = 16` while the claim requires
`x³ = 8`. -/
theorem c2_chis_are_squares_not_powers :
    checkChis 2 3 = [2, 4, 16] ∧ blockPowers 2 3 = [2, 4, 8] ∧
      checkChis 2 3 ≠ blockPowers 2 3 := by
  refine ⟨by decide, by decide, ?_⟩
  decide

/-- C3: the claim states the verifier processes an INV gate by setting
`K_z = K_x ⊕ Δ ⊕ ONE`. The code copies the key unchanged: at `K_x = 0`,
`Δ = 3` (LSB 1), the code produces `K_z = 0` while the claim requires
`0 ⊕ 3 ⊕ 1 = 2`. The prover side does flip exactly the LSB
(`M_z = M_x ⊕ 1`). -/
theorem c3_verifier_inv_copies_key :
    verifierInvGate 0 3 = 0 ∧ (0 : Block) ^^^ 3 ^^^ blockONE = 2 ∧
      verifierInvGate 0 3 ≠ (0 : Block) ^^^ 3 ^^^ blockONE ∧
      proverInvGate 4 = 5 ∧ proverInvGate 5 = 4 := by
  refine ⟨rfl, by decide, by decide, by decide, by decide⟩

/-- C4: the claim states both parties hash exactly the `n` accumulated mask
bits before deriving `χ`. For a window of `n = 8` AND gates whose mask bits
are all `true` (buffer padded with `false`), the prover hashes the byte string
`[0xFF]` while the verifier hashes `[0xFF, 0x00]` (it takes `n + 1` bools via
`..=`), so the two transcripts — and hence the derived seeds — differ. -/
theorem c4_transcript_mask_bytes_differ :
    proverMaskHashInput (List.replicate 8 true ++ List.replicate 8 false) 8 = [255] ∧
      verifierMaskHashInput (List.replicate 8 true ++ List.replicate 8 false) 8 = [255, 0] ∧
      proverMaskHashInput (List.replicate 8 true ++ List.replicate 8 false) 8 ≠
        verifierMaskHashInput (List.replicate 8 true ++ List.replicate 8 false) 8 := by
  refine ⟨by decide, by decide, by decide⟩

end Mpz

namespace Mpz

/-! ## Supporting lemmas for the store theorems -/

lemma sliceData_length (st : Store) (s : Slice) (h : s.ptr + s.size ≤ st.data.length) :
    (st.sliceData s).length = s.size := by
  simp [Store.sliceData]
  omega

lemma gather_ok (st : Store) (ranges : List Slice)
    (h : ∀ r ∈ ranges, r.ptr + r.size ≤ st.data.length ∧ st.isSet r) :
    gather st ranges = .ok (ranges.flatMap st.sliceData) := by
  induction ranges with
  | nil => rfl
  | cons r rest ih =>
    have hr := h r (by simp)
    have hrest : ∀ x ∈ rest, x.ptr + x.size ≤ st.data.length ∧ st.isSet x :=
      fun x hx => h x (by simp [hx])
    simp [gather, Store.tryGet, hr.1, hr.2, ih hrest, bind, Except.bind]

lemma gathered_length (st : Store) (ranges : List Slice)
    (h : ∀ r ∈ ranges, r.ptr + r.size ≤ st.data.length ∧ st.isSet r) :
    (ranges.flatMap st.sliceData).length = (ranges.map Slice.size).sum := by
  induction ranges with
  | nil => rfl
  | cons r rest ih =>
    have hr := h r (by simp)
    have hrest : ∀ x ∈ rest, x.ptr + x.size ≤ st.data.length ∧ st.isSet x :=
      fun x hx => h x (by simp [hx])
    simp [List.flatMap_cons, sliceData_length st r hr.1, ih hrest]

lemma lsb_authOne (δ : Block) (hδ : lsb δ = true) (x : Bool) (k : Block) :
    lsb (authOne δ x k) = xor (lsb k) x := by
  have hδb : δ.testBit 0 = true := hδ
  cases x with
  | true =>
    show lsb (k ^^^ δ) = xor (lsb k) true
    unfold lsb
    rw [Nat.testBit_xor, hδb]
  | false =>
    show lsb (k ^^^ 0) = xor (lsb k) false
    unfold lsb
    rw [Nat.xor_zero, Bool.xor_false]

lemma reconBits_auth (δ : Block) (hδ : lsb δ = true) :
    ∀ (ks : List Block) (xs : List Bool), xs.length = ks.length →
      reconBits ks ((List.zipWith (authOne δ) xs ks).map lsb) = xs := by
  intro ks
  induction ks with
  | nil =>
    intro xs h
    have hx : xs = [] := by simpa using h
    subst hx; rfl
  | cons k kt ih =>
    intro xs h
    cases xs with
    | nil => simp at h
    | cons x xt =>
      have hlen : xt.length = kt.length := by simpa using h
      simp only [reconBits, List.zipWith_cons_cons, List.map_cons]
      rw [lsb_authOne δ hδ x k]
      have hx : xor (lsb k) (xor (lsb k) x) = x := by cases lsb k <;> cases x <;> rfl
      rw [hx]
      have ht := ih xt hlen
      simp only [reconBits] at ht
      rw [ht]

lemma reconMacs_auth (δ : Block) (hδ : lsb δ = true) :
    ∀ (ks : List Block) (xs : List Bool), xs.length = ks.length →
      reconMacs δ ks ((List.zipWith (authOne δ) xs ks).map lsb) =
        List.zipWith (authOne δ) xs ks := by
  intro ks
  induction ks with
  | nil =>
    intro xs h
    have hx : xs = [] := by simpa using h
    subst hx; rfl
  | cons k kt ih =>
    intro xs h
    cases xs with
    | nil => simp at h
    | cons x xt =>
      have hlen : xt.length = kt.length := by simpa using h
      simp only [reconMacs, List.zipWith_cons_cons, List.map_cons]
      rw [lsb_authOne δ hδ x k]
      have hx : xor (lsb k) (xor (lsb k) x) = x := by cases lsb k <;> cases x <;> rfl
      rw [hx]
      have ht := ih xt hlen
      simp only [reconMacs] at ht
      rw [ht]
      cases x <;> simp [authOne]

end Mpz

namespace Mpz

/-- C5: with all keys of the ranges set, `KeyStore::verify` reconstructs
`M'ᵢ = Kᵢ ⊕ ((LSB(Kᵢ) ⊕ mᵢ)·Δ)`, hashes the reconstructed MACs in canonical
range order, and succeeds — overwriting `mac_bits` in place with the recovered
truth bits `LSB(Kᵢ) ⊕ mᵢ` — exactly when the hash equals `proof_hash`; on a
mismatch it returns the `Verify` error and leaves `mac_bits` unchanged. -/
theorem c5_keystore_verify (H : List Nat → Nat) (st : KeyStore) (ranges : List Slice)
    (bits : List Bool) (proof : Nat)
    (hset : ∀ r ∈ ranges, r.ptr + r.size ≤ st.keys.data.length ∧ st.keys.isSet r)
    (hlen : (ranges.map Slice.size).sum = bits.length) :
    (KeyStore.verify H st ranges bits proof =
        some (.ok (), reconBits (ranges.flatMap st.keys.sliceData) bits) ↔
      H (blocksToBytes (reconMacs st.delta (ranges.flatMap st.keys.sliceData) bits)) = proof) ∧
    (H (blocksToBytes (reconMacs st.delta (ranges.flatMap st.keys.sliceData) bits)) ≠ proof →
      KeyStore.verify H st ranges bits proof = some (.error .Verify, bits)) := by
  have hg := gather_ok st.keys ranges hset
  by_cases hH :
      H (blocksToBytes (reconMacs st.delta (ranges.flatMap st.keys.sliceData) bits)) = proof
  · constructor
    · simp [KeyStore.verify, hlen, hg, hH]
    · intro hc; exact absurd hH hc
  · constructor
    · constructor
      · intro hv
        exfalso
        simp [KeyStore.verify, hlen, hg, hH] at hv
      · intro hc; exact absurd hc hH
    · intro _
      simp [KeyStore.verify, hlen, hg, hH]

/-- C5 witness: a store with one set key `K₀ = 0` and `Δ = 3`; the matching
proof hash succeeds and recovers the truth bit `true`, the mismatching one
returns `Verify` and leaves the bit alone. -/
theorem c5_keystore_verify_witness :
    (KeyStore.verify (fun _ => 7) ⟨⟨[0], {0}⟩, 3, ∅⟩ [⟨0, 1⟩] [true] 7 =
        some (.ok (), reconBits (([⟨0, 1⟩] : List Slice).flatMap
          (Store.sliceData ⟨[0], {0}⟩)) [true]) ↔
      (fun (_ : List Nat) => 7) (blocksToBytes (reconMacs 3
        (([⟨0, 1⟩] : List Slice).flatMap (Store.sliceData ⟨[0], {0}⟩)) [true])) = 7) ∧
    KeyStore.verify (fun _ => 7) ⟨⟨[0], {0}⟩, 3, ∅⟩ [⟨0, 1⟩] [true] 8 =
      some (.error .Verify, [true]) := by
  constructor
  · exact (c5_keystore_verify (fun _ => 7) ⟨⟨[0], {0}⟩, 3, ∅⟩ [⟨0, 1⟩] [true] 7
      (by decide) (by decide)).1
  · exact (c5_keystore_verify (fun _ => 7) ⟨⟨[0], {0}⟩, 3, ∅⟩ [⟨0, 1⟩] [true] 8
      (by decide) (by decide)).2 (by decide)

end Mpz

namespace Mpz

/-- C6: if `Δ` has LSB 1, the keys of the ranges are all set, and the MAC
store holds exactly the MACs `Mᵢ = Kᵢ ⊕ (xᵢ·Δ)` produced by
`KeyStore::authenticate` on the matching slices, then `MacStore::prove`
followed by `KeyStore::verify` on the same ranges succeeds and recovers
exactly the bit vector `x`. -/
theorem c6_prove_verify_roundtrip (H : List Nat → Nat) (st : KeyStore) (ms : MacStore)
    (ranges : List Slice) (x : List Bool)
    (hδ : lsb st.delta = true)
    (hset : ∀ r ∈ ranges, r.ptr + r.size ≤ st.keys.data.length ∧ st.keys.isSet r)
    (hx : x.length = (ranges.map Slice.size).sum)
    (hmacs : gather ms.macs ranges =
      .ok (List.zipWith (authOne st.delta) x (ranges.flatMap st.keys.sliceData))) :
    MacStore.prove H ms ranges =
      .ok ((List.zipWith (authOne st.delta) x (ranges.flatMap st.keys.sliceData)).map lsb,
        H (blocksToBytes (List.zipWith (authOne st.delta) x
          (ranges.flatMap st.keys.sliceData)))) ∧
    KeyStore.verify H st ranges
      ((List.zipWith (authOne st.delta) x (ranges.flatMap st.keys.sliceData)).map lsb)
      (H (blocksToBytes (List.zipWith (authOne st.delta) x
        (ranges.flatMap st.keys.sliceData)))) =
      some (.ok (), x) := by
  have hklen : (ranges.flatMap st.keys.sliceData).length = (ranges.map Slice.size).sum :=
    gathered_length st.keys ranges hset
  have hxk : x.length = (ranges.flatMap st.keys.sliceData).length := by omega
  have hblen :
      ((List.zipWith (authOne st.delta) x (ranges.flatMap st.keys.sliceData)).map lsb).length =
        (ranges.map Slice.size).sum := by
    rw [List.length_map, List.length_zipWith, ← hxk, Nat.min_self, hx]
  constructor
  · simp [MacStore.prove, hmacs, Except.map]
  · have hg := gather_ok st.keys ranges hset
    have hrb := reconBits_auth st.delta hδ (ranges.flatMap st.keys.sliceData) x hxk
    have hrm := reconMacs_auth st.delta hδ (ranges.flatMap st.keys.sliceData) x hxk
    simp [KeyStore.verify, hblen, hg, hrb, hrm]

/-- C6 witness: keys `[0, 6]`, `Δ = 3`, truth bits `[true, false]`; the MAC
store holds `[3, 6]` and the prove/verify round trip recovers
`[true, false]`. -/
theorem c6_prove_verify_roundtrip_witness :
    MacStore.prove (fun l => l.length) ⟨⟨[3, 6], {0, 1}⟩⟩ [⟨0, 2⟩] =
      .ok ([true, false], 32) ∧
    KeyStore.verify (fun l => l.length) ⟨⟨[0, 6], {0, 1}⟩, 3, ∅⟩ [⟨0, 2⟩]
      [true, false] 32 = some (.ok (), [true, false]) := by
  have h := c6_prove_verify_roundtrip (fun l => l.length) ⟨⟨[0, 6], {0, 1}⟩, 3, ∅⟩
    ⟨⟨[3, 6], {0, 1}⟩⟩ [⟨0, 2⟩] [true, false] (by decide) (by decide) (by decide) (by decide)
  exact ⟨h.1.trans (by decide), h.2.trans (by decide)⟩

end Mpz

namespace Mpz

/-- Every `KeyStore` operation only grows the `used` range set (`authenticate`
and `oblivious_transfer` union it with the slice; nothing ever removes
ranges). -/
lemma step_used_mono (st : KeyStore) (op : KOp) : st.used ⊆ (st.step op).used := by
  cases op with
  | auth s d =>
    simp only [KeyStore.step, KeyStore.authenticate]
    by_cases hsz : s.size = d.length
    · simp only [hsz, if_true]
      by_cases hu : st.isUsed s
      · simp [hu]
      · by_cases hs : st.keys.isSet s
        · simp [hu, hs, Finset.subset_union_left]
        · simp [hu, hs]
    · simp [hsz]
  | ot s =>
    simp only [KeyStore.step, KeyStore.obliviousTransfer]
    by_cases hu : st.isUsed s
    · simp [hu]
    · by_cases hs : st.keys.isSet s
      · simp [hu, hs, Finset.subset_union_left]
      · simp [hu, hs]
  | adj s a =>
    simp only [KeyStore.step]
    cases hA : st.adjust s a with
    | none => exact Finset.Subset.refl _
    | some p =>
      unfold KeyStore.adjust at hA
      split at hA
      · injection hA with hA
        split at hA
        · split at hA
          · rw [← hA]
          · rw [← hA]
        · rw [← hA]
      · exact Option.noConfusion hA
  | setKeys s vals =>
    simp only [KeyStore.step, KeyStore.trySetKeys, Store.trySet]
    by_cases hr : s.ptr + s.size ≤ st.keys.data.length
    · by_cases hd : Disjoint s.idx st.keys.inited
      · simp [hr, hd]
      · simp [hr, hd]
    · simp [hr]
  | allocOp len => simp [KeyStore.step]

/-- `used` grows monotonically along any operation sequence. -/
lemma run_used_mono (ops : List KOp) : ∀ st : KeyStore, st.used ⊆ (st.run ops).used := by
  induction ops with
  | nil => intro st; exact Finset.Subset.refl _
  | cons op rest ih =>
    intro st
    exact (step_used_mono st op).trans (ih (st.step op))

/-- A successful `authenticate` adds exactly the slice to `used`. -/
lemma authenticate_ok_used (st : KeyStore) (s : Slice) (d : List Bool)
    (out : List Block) (st₁ : KeyStore)
    (h : st.authenticate s d = some (.ok out, st₁)) :
    st₁.used = st.used ∪ s.idx := by
  by_cases hsz : s.size = d.length
  · by_cases hu : st.isUsed s
    · simp [KeyStore.authenticate, hsz, hu] at h
    · by_cases hs : st.keys.isSet s
      · simp [KeyStore.authenticate, hsz, hu, hs] at h
        rw [← h.2]
      · simp [KeyStore.authenticate, hsz, hu, hs] at h
  · simp [KeyStore.authenticate, hsz] at h

/-- A successful `oblivious_transfer` adds exactly the slice to `used`. -/
lemma ot_ok_used (st : KeyStore) (s : Slice) (out : List Block) (st₁ : KeyStore)
    (h : st.obliviousTransfer s = (.ok out, st₁)) :
    st₁.used = st.used ∪ s.idx := by
  by_cases hu : st.isUsed s
  · simp [KeyStore.obliviousTransfer, hu] at h
  · by_cases hs : st.keys.isSet s
    · simp [KeyStore.obliviousTransfer, hu, hs] at h
      rw [← h.2]
    · simp [KeyStore.obliviousTransfer, hu, hs] at h

/-- Any store whose `used` set covers part of `s₂` rejects an assignment on
`s₂` with `AlreadyAssigned` and stays unchanged. -/
lemma assigned_rejects (st : KeyStore) (s₂ : Slice) (d₂ : List Bool)
    (hd₂ : s₂.size = d₂.length) (hu : st.isUsed s₂) :
    st.authenticate s₂ d₂ = some (.error .AlreadyAssigned, st) ∧
      st.obliviousTransfer s₂ = (.error .AlreadyAssigned, st) := by
  constructor
  · simp [KeyStore.authenticate, hd₂, hu]
  · simp [KeyStore.obliviousTransfer, hu]

/-- C7: after a successful `authenticate` (or `oblivious_transfer`) on `s`,
any later `authenticate`/`oblivious_transfer` on any overlapping slice `s₂` —
including `s₂ = s` itself and any fully-initialized overlap, with arbitrary
store operations in between — fails with `AlreadyAssigned` and leaves the
store unchanged; and on a store where `s₂` is unused but not fully set, both
calls fail with `Uninit` and leave the store unchanged. -/
theorem c7_assignment_protocol (st st₁ st₂ : KeyStore) (s s₂ : Slice)
    (d d₂ : List Bool) (outA outB : List Block) (opsA opsB : List KOp)
    (hd₂ : s₂.size = d₂.length)
    (hov : ¬ Disjoint s.idx s₂.idx) :
    (st.authenticate s d = some (.ok outA, st₁) →
      (st₁.run opsA).authenticate s₂ d₂ =
        some (.error .AlreadyAssigned, st₁.run opsA) ∧
      (st₁.run opsA).obliviousTransfer s₂ =
        (.error .AlreadyAssigned, st₁.run opsA)) ∧
    (st.obliviousTransfer s = (.ok outB, st₂) →
      (st₂.run opsB).authenticate s₂ d₂ =
        some (.error .AlreadyAssigned, st₂.run opsB) ∧
      (st₂.run opsB).obliviousTransfer s₂ =
        (.error .AlreadyAssigned, st₂.run opsB)) ∧
    (¬ st.isUsed s₂ → ¬ st.keys.isSet s₂ →
      st.authenticate s₂ d₂ = some (.error .Uninit, st) ∧
      st.obliviousTransfer s₂ = (.error .Uninit, st)) := by
  have hused : ∀ st' : KeyStore, s.idx ⊆ st'.used → (st'.isUsed s₂) := by
    intro st' hsub hdisj
    exact hov (Finset.disjoint_of_subset_right hsub hdisj).symm
  refine ⟨?_, ?_, ?_⟩
  · intro hauth
    have h₁ : s.idx ⊆ st₁.used := by
      rw [authenticate_ok_used st s d outA st₁ hauth]
      exact Finset.subset_union_right
    exact assigned_rejects _ s₂ d₂ hd₂ (hused _ (h₁.trans (run_used_mono opsA st₁)))
  · intro hot
    have h₂ : s.idx ⊆ st₂.used := by
      rw [ot_ok_used st s outB st₂ hot]
      exact Finset.subset_union_right
    exact assigned_rejects _ s₂ d₂ hd₂ (hused _ (h₂.trans (run_used_mono opsB st₂)))
  · intro hu₂ hs₂
    constructor
    · simp [KeyStore.authenticate, hd₂, hu₂, hs₂]
    · simp [KeyStore.obliviousTransfer, hu₂, hs₂]

/-- C7 witness. Central case: keys `[0, 0]` both initialized, `s = [0, 1)` is
assigned successfully by authenticate (and, on the same fresh store, by
oblivious transfer); re-assigning the very same fully-set slice `s₂ = s`
afterwards — with an interleaved alloc — fails with `AlreadyAssigned` and
leaves the store as it was. Uninit case: on a store with only key 0
initialized, the unused overlapping slice `[0, 2)` is not fully set, so both
calls fail with `Uninit`. -/
theorem c7_assignment_protocol_witness :
    (((⟨⟨[0, 0], {0, 1}⟩, 3, {0}⟩ : KeyStore).run [.allocOp 1]).authenticate ⟨0, 1⟩
        [true] =
      some (.error .AlreadyAssigned,
        (⟨⟨[0, 0], {0, 1}⟩, 3, {0}⟩ : KeyStore).run [.allocOp 1])) ∧
    (((⟨⟨[0, 0], {0, 1}⟩, 3, {0}⟩ : KeyStore).run []).obliviousTransfer ⟨0, 1⟩ =
      (.error .AlreadyAssigned, (⟨⟨[0, 0], {0, 1}⟩, 3, {0}⟩ : KeyStore).run [])) ∧
    ((⟨⟨[0, 0, 0], {0}⟩, 3, ∅⟩ : KeyStore).authenticate ⟨0, 2⟩ [true, false] =
      some (.error .Uninit, (⟨⟨[0, 0, 0], {0}⟩, 3, ∅⟩ : KeyStore))) ∧
    ((⟨⟨[0, 0, 0], {0}⟩, 3, ∅⟩ : KeyStore).obliviousTransfer ⟨0, 2⟩ =
      (.error .Uninit, (⟨⟨[0, 0, 0], {0}⟩, 3, ∅⟩ : KeyStore))) := by
  have hA := c7_assignment_protocol ⟨⟨[0, 0], {0, 1}⟩, 3, ∅⟩
    ⟨⟨[0, 0], {0, 1}⟩, 3, {0}⟩ ⟨⟨[0, 0], {0, 1}⟩, 3, {0}⟩ ⟨0, 1⟩ ⟨0, 1⟩
    [true] [true] [3] [0] [.allocOp 1] []
    (by decide) (by decide)
  have hB := c7_assignment_protocol ⟨⟨[0, 0, 0], {0}⟩, 3, ∅⟩
    ⟨⟨[0, 0, 0], {0}⟩, 3, {0}⟩ ⟨⟨[0, 0, 0], {0}⟩, 3, {0}⟩ ⟨0, 1⟩ ⟨0, 2⟩
    [true] [true, false] [3] [0] [] []
    (by decide) (by decide)
  have hBU := hB.2.2 (by decide) (by decide)
  exact ⟨(hA.1 (by decide)).1, (hA.2.1 (by decide)).2, hBU.1, hBU.2⟩

end Mpz

namespace Mpz

lemma adjustData_length : ∀ (d : List Block) (p : Nat) (a : List Bool),
    (adjustData d p a).length = d.length := by
  intro d
  induction d with
  | nil => intro p a; cases p <;> cases a <;> rfl
  | cons b rest ih =>
    intro p a
    cases p with
    | succ p => simp [adjustData, ih p a]
    | zero =>
      cases a with
      | nil => simp [adjustData]
      | cons ab arest => simp [adjustData, ih 0 arest]

lemma adjustData_getD : ∀ (d : List Block) (p : Nat) (a : List Bool) (i : Nat),
    i < d.length →
    (adjustData d p a).getD i 0 =
      if p ≤ i ∧ i - p < a.length then xorLsb (d.getD i 0) (a.getD (i - p) false)
      else d.getD i 0 := by
  intro d
  induction d with
  | nil => intro p a i hi; simp at hi
  | cons b rest ih =>
    intro p a i hi
    cases p with
    | succ p =>
      cases i with
      | zero =>
        have hc : ¬ (p + 1 ≤ 0 ∧ 0 - (p + 1) < a.length) := by omega
        simp [adjustData, hc]
      | succ i =>
        have hi' : i < rest.length := by simpa using hi
        have hrec := ih p a i hi'
        have hsub : i + 1 - (p + 1) = i - p := by omega
        have hcond : (p + 1 ≤ i + 1 ∧ i - p < a.length) ↔ (p ≤ i ∧ i - p < a.length) := by
          omega
        simp only [adjustData, List.getD_cons_succ, hrec, hsub, hcond]
    | zero =>
      cases a with
      | nil =>
        have hc : ¬ ((0 : Nat) ≤ i ∧ i - 0 < ([] : List Bool).length) := by simp
        simp [adjustData, hc]
      | cons ab arest =>
        cases i with
        | zero => simp [adjustData]
        | succ i =>
          have hi' : i < rest.length := by simpa using hi
          have hrec := ih 0 arest i hi'
          simp only [adjustData, List.getD_cons_succ, hrec, Nat.sub_zero, List.length_cons]
          have hcond : ((0 : Nat) ≤ i + 1 ∧ i + 1 < arest.length + 1) ↔
              ((0 : Nat) ≤ i ∧ i < arest.length) := by omega
          simp only [hcond]

/-- Only the LSB can change under `xor_lsb`: the upper bits (the block shifted
right by one) are untouched. -/
lemma xorLsb_shiftRight (b : Block) (bit : Bool) : (xorLsb b bit) >>> 1 = b >>> 1 := by
  cases bit with
  | false => simp [xorLsb]
  | true =>
    show (b ^^^ 1) >>> 1 = b >>> 1
    apply Nat.eq_of_testBit_eq
    intro j
    rw [Nat.testBit_shiftRight, Nat.testBit_shiftRight, Nat.testBit_xor]
    have h1 : (1 : Nat).testBit (1 + j) = false :=
      Nat.testBit_lt_two_pow (by
        have : (2 : Nat) ≤ 2 ^ (1 + j) := by
          calc (2 : Nat) = 2 ^ 1 := rfl
          _ ≤ 2 ^ (1 + j) := Nat.pow_le_pow_right (by omega) (by omega)
        omega)
    rw [h1, Bool.xor_false]

/-- `xor_lsb` flips exactly the LSB when the bit is set and is the identity
when it is clear. -/
lemma xorLsb_spec (b : Block) :
    xorLsb b false = b ∧ xorLsb b true = b ^^^ 1 := by
  constructor
  · simp [xorLsb]
  · rfl

end Mpz

namespace Mpz

/-- C10: a successful `KeyStore::adjust` / `MacStore::try_adjust` on an
initialized slice with a matching-length bit slice succeeds and touches at
most the LSB of the blocks inside the slice: at every arena position the
upper 127 bits are unchanged, positions outside the slice (and positions
whose adjust bit is 0) are completely unchanged, positions with adjust bit 1
have exactly their LSB flipped, and the initialized / used range sets, delta
and arena length are untouched. -/
theorem c10_adjust_frame (st : KeyStore) (ms : MacStore) (s : Slice) (adj : List Bool)
    (i : Nat)
    (hlen : s.size = adj.length)
    (hrangeK : s.ptr + s.size ≤ st.keys.data.length)
    (hsetK : st.keys.isSet s)
    (hrangeM : s.ptr + s.size ≤ ms.macs.data.length)
    (hsetM : ms.macs.isSet s)
    (hiK : i < st.keys.data.length)
    (hiM : i < ms.macs.data.length) :
    st.adjust s adj = some (.ok (),
      { st with keys := { st.keys with data := adjustData st.keys.data s.ptr adj } }) ∧
    ms.tryAdjust s adj = some (.ok (),
      ⟨{ ms.macs with data := adjustData ms.macs.data s.ptr adj }⟩) ∧
    (adjustData st.keys.data s.ptr adj).length = st.keys.data.length ∧
    (adjustData ms.macs.data s.ptr adj).length = ms.macs.data.length ∧
    ((adjustData st.keys.data s.ptr adj).getD i 0) >>> 1 = (st.keys.data.getD i 0) >>> 1 ∧
    ((adjustData ms.macs.data s.ptr adj).getD i 0) >>> 1 = (ms.macs.data.getD i 0) >>> 1 ∧
    (¬ (s.ptr ≤ i ∧ i < s.ptr + s.size) →
      (adjustData st.keys.data s.ptr adj).getD i 0 = st.keys.data.getD i 0 ∧
      (adjustData ms.macs.data s.ptr adj).getD i 0 = ms.macs.data.getD i 0) ∧
    ((s.ptr ≤ i ∧ i < s.ptr + s.size) → adj.getD (i - s.ptr) false = false →
      (adjustData st.keys.data s.ptr adj).getD i 0 = st.keys.data.getD i 0 ∧
      (adjustData ms.macs.data s.ptr adj).getD i 0 = ms.macs.data.getD i 0) ∧
    ((s.ptr ≤ i ∧ i < s.ptr + s.size) → adj.getD (i - s.ptr) false = true →
      (adjustData st.keys.data s.ptr adj).getD i 0 = st.keys.data.getD i 0 ^^^ 1 ∧
      (adjustData ms.macs.data s.ptr adj).getD i 0 = ms.macs.data.getD i 0 ^^^ 1) := by
  have hinK : ∀ bit, (s.ptr ≤ i ∧ i < s.ptr + s.size) →
      adj.getD (i - s.ptr) false = bit →
      (adjustData st.keys.data s.ptr adj).getD i 0 = xorLsb (st.keys.data.getD i 0) bit := by
    intro bit hin hbit
    rw [adjustData_getD st.keys.data s.ptr adj i hiK, if_pos (by omega), hbit]
  have hinM : ∀ bit, (s.ptr ≤ i ∧ i < s.ptr + s.size) →
      adj.getD (i - s.ptr) false = bit →
      (adjustData ms.macs.data s.ptr adj).getD i 0 = xorLsb (ms.macs.data.getD i 0) bit := by
    intro bit hin hbit
    rw [adjustData_getD ms.macs.data s.ptr adj i hiM, if_pos (by omega), hbit]
  refine ⟨?_, ?_, adjustData_length _ _ _, adjustData_length _ _ _, ?_, ?_, ?_, ?_, ?_⟩
  · have hr' : s.ptr + adj.length ≤ st.keys.data.length := by omega
    simp [KeyStore.adjust, hlen, hr', hsetK]
  · have hr' : s.ptr + adj.length ≤ ms.macs.data.length := by omega
    simp [MacStore.tryAdjust, hlen, hr', hsetM]
  · rw [adjustData_getD st.keys.data s.ptr adj i hiK]
    by_cases hc : s.ptr ≤ i ∧ i - s.ptr < adj.length
    · rw [if_pos hc]; exact xorLsb_shiftRight _ _
    · rw [if_neg hc]
  · rw [adjustData_getD ms.macs.data s.ptr adj i hiM]
    by_cases hc : s.ptr ≤ i ∧ i - s.ptr < adj.length
    · rw [if_pos hc]; exact xorLsb_shiftRight _ _
    · rw [if_neg hc]
  · intro hout
    constructor
    · rw [adjustData_getD st.keys.data s.ptr adj i hiK, if_neg (by omega)]
    · rw [adjustData_getD ms.macs.data s.ptr adj i hiM, if_neg (by omega)]
  · intro hin hbit
    exact ⟨by rw [hinK false hin hbit]; exact (xorLsb_spec _).1,
      by rw [hinM false hin hbit]; exact (xorLsb_spec _).1⟩
  · intro hin hbit
    exact ⟨by rw [hinK true hin hbit]; exact (xorLsb_spec _).2,
      by rw [hinM true hin hbit]; exact (xorLsb_spec _).2⟩

/-- C10 witness: keys `[2, 3, 8]`, MACs `[4, 5, 9]`, slice `[0, 2)` with
adjust bits `[true, false]`: only the LSB of position 0 flips
(`2 → 3`, `4 → 5`), position 1 has adjust bit 0 and position 2 is outside
the slice, both unchanged. -/
theorem c10_adjust_frame_witness :
    (⟨⟨[2, 3, 8], {0, 1}⟩, 3, ∅⟩ : KeyStore).adjust ⟨0, 2⟩ [true, false] =
      some (.ok (), (⟨⟨[3, 3, 8], {0, 1}⟩, 3, ∅⟩ : KeyStore)) ∧
    (⟨⟨[4, 5, 9], {0, 1}⟩⟩ : MacStore).tryAdjust ⟨0, 2⟩ [true, false] =
      some (.ok (), (⟨⟨[5, 5, 9], {0, 1}⟩⟩ : MacStore)) ∧
    (adjustData [2, 3, 8] 0 [true, false]).getD 2 0 = 8 ∧
    (adjustData [2, 3, 8] 0 [true, false]).getD 0 0 = 2 ^^^ 1 := by
  have h := c10_adjust_frame ⟨⟨[2, 3, 8], {0, 1}⟩, 3, ∅⟩ ⟨⟨[4, 5, 9], {0, 1}⟩⟩
    ⟨0, 2⟩ [true, false] 0 (by decide) (by decide) (by decide) (by decide) (by decide)
    (by decide) (by decide)
  have h2 := c10_adjust_frame ⟨⟨[2, 3, 8], {0, 1}⟩, 3, ∅⟩ ⟨⟨[4, 5, 9], {0, 1}⟩⟩
    ⟨0, 2⟩ [true, false] 2 (by decide) (by decide) (by decide) (by decide) (by decide)
    (by decide) (by decide)
  refine ⟨h.1.trans (by decide), h.2.1.trans (by decide), ?_, ?_⟩
  · exact ((h2.2.2.2.2.2.2.1 (by decide)).1).trans (by decide)
  · exact ((h.2.2.2.2.2.2.2.2 (by decide) (by decide)).1).trans (by decide)

end Mpz

namespace Mpz

/-! ## QuickSilver prover (`mpz-zk-core/src/quicksilver/prover.rs`) -/

/-- `CHECK_BUFFER_SIZE` from `quicksilver/mod.rs`: `1024 * 1024`. -/
def CHECK_BUFFER_SIZE : Nat := 1024 * 1024

/-- `set_value` from `quicksilver/prover.rs`:
`(block & MINIS_ONE) ^ (if b { ONE } else { ZERO })`. -/
def setValue (block : Block) (b : Bool) : Block :=
  (block &&& blockMINIS_ONE) ^^^ (if b then blockONE else 0)

/-- The QuickSilver prover state: the three triple buffers, the check
counter, the running BLAKE3 transcript (modelled as the list of bytes fed to
the hasher) and the mask-bit buffer. -/
structure QsProver where
  bufLeft : List Block
  bufRight : List Block
  bufOut : List Block
  counter : Nat
  transcript : List Nat
  bufHash : List Bool
deriving DecidableEq

/-- `Prover::auth_and_gate(ma, mb, cot)`: asserts
`check_counter < CHECK_BUFFER_SIZE` (modelled as `none` = panic), stores the
triple, computes `v = lsb(ma) & lsb(mb)`, the emitted mask `d = v ^ s` and the
output MAC `set_value(blk, v)`, and increments the counter. -/
def QsProver.authAndGate (st : QsProver) (ma mb : Block) (cot : Bool × Block) :
    Option ((Bool × Block) × QsProver) :=
  if st.counter < CHECK_BUFFER_SIZE then
    let v := lsb ma && lsb mb
    let d := xor v cot.1
    let mc := setValue cot.2 v
    some ((d, mc),
      { st with
        bufLeft := st.bufLeft.set st.counter ma
        bufRight := st.bufRight.set st.counter mb
        bufOut := st.bufOut.set st.counter mc
        bufHash := st.bufHash.set st.counter d
        counter := st.counter + 1 })
  else none

/-- `Prover::check_and_gates(vope)`: asserts
`check_counter <= CHECK_BUFFER_SIZE` (modelled as `none` = panic), computes
the per-triple terms `(a·b, A₁₀ ⊕ A₁₁ ⊕ c)` over the first `check_counter`
entries of the buffers, hashes `bools_to_bytes(buf_hash[..check_counter])`
into the transcript, derives the seed from the hash (`H`, truncated to 16
bytes) of the transcript so far, forms the coefficients with
`Block::powers`, produces the masked inner products `(U, V)`, appends their
bytes to the transcript and resets the counter to zero. -/
def QsProver.checkAndGates (H : List Nat → Nat) (st : QsProver) (vope : Block × Block) :
    Option ((Block × Block) × QsProver) :=
  if st.counter ≤ CHECK_BUFFER_SIZE then
    let lefts := st.bufLeft.take st.counter
    let rights := st.bufRight.take st.counter
    let outs := st.bufOut.take st.counter
    let us := List.zipWith gfmul lefts rights
    let vs := List.zipWith (fun ab c =>
        (if lsb ab.1 then ab.2 else 0) ^^^ (if lsb ab.2 then ab.1 else 0) ^^^ c)
      (List.zip lefts rights) outs
    let transcript₁ := st.transcript ++ boolsToBytes (st.bufHash.take st.counter)
    let seed := H transcript₁ % 2 ^ 128
    let chis := blockPowers seed st.counter
    let u := innPrdtRed us chis ^^^ vope.1
    let v := innPrdtRed vs chis ^^^ vope.2
    some ((u, v),
      { st with
        transcript := transcript₁ ++ blockToBytes u ++ blockToBytes v
        counter := 0 })
  else none

/-- C8: the AND-triple accumulator never exceeds the `2^20` window:
`auth_and_gate` succeeds exactly while the counter is below
`CHECK_BUFFER_SIZE = 2^20` (and then only bumps it by one, keeping it within
the bound), and every execution of the check resets the accumulator to empty
and appends the emitted `(U, V)` blocks to the transcript. -/
theorem c8_accumulator_window (H : List Nat → Nat) (st : QsProver) (ma mb : Block)
    (cot : Bool × Block) (vope : Block × Block) (r : Bool × Block) (uv : Block × Block)
    (st₁ st₂ : QsProver) :
    ((st.authAndGate ma mb cot).isSome ↔ st.counter < 1024 * 1024) ∧
    (st.authAndGate ma mb cot = some (r, st₁) →
      st₁.counter = st.counter + 1 ∧ st₁.counter ≤ 1024 * 1024) ∧
    (st.checkAndGates H vope = some (uv, st₂) →
      st₂.counter = 0 ∧
      st₂.transcript = st.transcript ++ boolsToBytes (st.bufHash.take st.counter)
        ++ blockToBytes uv.1 ++ blockToBytes uv.2) := by
  refine ⟨?_, ?_, ?_⟩
  · constructor
    · intro hs
      by_contra hc
      simp [QsProver.authAndGate, CHECK_BUFFER_SIZE] at hs hc
      omega
    · intro hlt
      simp [QsProver.authAndGate, CHECK_BUFFER_SIZE, hlt]
  · intro h
    by_cases hlt : st.counter < CHECK_BUFFER_SIZE
    · simp [QsProver.authAndGate, hlt] at h
      have := h.2
      constructor
      · rw [← this]
      · rw [← this]
        simp [CHECK_BUFFER_SIZE] at hlt ⊢
        omega
    · simp [QsProver.authAndGate, hlt] at h
  · intro h
    by_cases hle : st.counter ≤ CHECK_BUFFER_SIZE
    · simp only [QsProver.checkAndGates, hle, if_true, Option.some.injEq] at h
      obtain ⟨huv, hst⟩ := Prod.mk.injEq .. ▸ h
      constructor
      · rw [← hst]
      · rw [← hst, ← huv]
    · simp [QsProver.checkAndGates, hle] at h

/-- C8 witness: a fresh one-slot state accepts a triple (counter `0 < 2^20`),
bumping the counter to 1; a check on the empty accumulator emits the VOPE
masks `(5, 6)` and resets the counter while appending the `(U, V)` bytes to
the transcript. -/
theorem c8_accumulator_window_witness :
    (((⟨[0], [0], [0], 0, [], [false]⟩ : QsProver).authAndGate 1 1 (false, 2)).isSome ↔
      (0 : Nat) < 1024 * 1024) ∧
    ((⟨[1], [1], [3], 1, [], [true]⟩ : QsProver).counter = 0 + 1 ∧
      (⟨[1], [1], [3], 1, [], [true]⟩ : QsProver).counter ≤ 1024 * 1024) ∧
    ((⟨[0], [0], [0], 0, blockToBytes 5 ++ blockToBytes 6, [false]⟩ : QsProver).counter = 0 ∧
      (⟨[0], [0], [0], 0, blockToBytes 5 ++ blockToBytes 6, [false]⟩ : QsProver).transcript =
        ([] : List Nat) ++ boolsToBytes (([false] : List Bool).take 0)
          ++ blockToBytes 5 ++ blockToBytes 6) := by
  have h := c8_accumulator_window (fun _ => 0) ⟨[0], [0], [0], 0, [], [false]⟩ 1 1
    (false, 2) (5, 6) (true, 3) (5, 6)
    ⟨[1], [1], [3], 1, [], [true]⟩
    ⟨[0], [0], [0], 0, blockToBytes 5 ++ blockToBytes 6, [false]⟩
  exact ⟨h.1, h.2.1 (by decide), h.2.2 (by decide)⟩

end Mpz

namespace Mpz

lemma getD_cons8 (x1 x2 x3 x4 x5 x6 x7 x8 : Bool) (l : List Bool) (n : Nat) :
    (x1::x2::x3::x4::x5::x6::x7::x8::l).getD (n + 8) false = l.getD n false := rfl

lemma byteAt_cons8 (x1 x2 x3 x4 x5 x6 x7 x8 : Bool) (l : List Bool) (j : Nat) :
    byteAt (x1::x2::x3::x4::x5::x6::x7::x8::l) (j + 1) = byteAt l j := by
  have h : ∀ k : Nat, (x1::x2::x3::x4::x5::x6::x7::x8::l).getD (8 * (j + 1) + k) false
      = l.getD (8 * j + k) false := by
    intro k
    have e : 8 * (j + 1) + k = (8 * j + k) + 8 := by omega
    rw [e, getD_cons8]
  have h0 : (x1::x2::x3::x4::x5::x6::x7::x8::l).getD (8 * (j + 1)) false
      = l.getD (8 * j) false := by
    have e : 8 * (j + 1) = 8 * j + 8 := by omega
    rw [e, getD_cons8]
  simp only [byteAt, h0, h 1, h 2, h 3, h 4, h 5, h 6, h 7]

lemma boolsToBytes_chunk (a b c d e f g h : Bool) (t : List Bool) :
    boolsToBytes (a::b::c::d::e::f::g::h::t) =
      byteAt (a::b::c::d::e::f::g::h::t) 0 :: boolsToBytes t := by
  have hlen : (a::b::c::d::e::f::g::h::t).length = t.length + 8 := by
    simp [List.length_cons]
  have hnum : numBytes (t.length + 8) = numBytes t.length + 1 := by
    unfold numBytes
    have h1 : (t.length + 8) % 8 = t.length % 8 := by omega
    have h2 : (t.length + 8) / 8 = t.length / 8 + 1 := by omega
    rw [h1, h2]
    ring
  simp only [boolsToBytes, hlen, hnum, List.range_succ_eq_map, List.map_cons, List.map_map]
  refine congrArg₂ List.cons rfl ?_
  apply List.map_congr_left
  intro j _
  exact byteAt_cons8 a b c d e f g h t j

lemma bytesToBools_cons (y : Nat) (ys : List Nat) :
    bytesToBools (y :: ys) = byteBits y ++ bytesToBools ys := by
  simp [bytesToBools]

lemma byteAt_chunk_head (x1 x2 x3 x4 x5 x6 x7 x8 : Bool) (t : List Bool) :
    byteAt (x1::x2::x3::x4::x5::x6::x7::x8::t) 0 =
      bitVal x1 <<< 7 + bitVal x2 <<< 6 + bitVal x3 <<< 5 + bitVal x4 <<< 4 +
      bitVal x5 <<< 3 + bitVal x6 <<< 2 + bitVal x7 <<< 1 + bitVal x8 := rfl

set_option maxHeartbeats 1600000 in
lemma byteBits_byteAt_chunk (a b c d e f g h : Bool) (t : List Bool) :
    byteBits (byteAt (a::b::c::d::e::f::g::h::t) 0) = [a, b, c, d, e, f, g, h] := by
  rw [byteAt_chunk_head]
  cases a <;> cases b <;> cases c <;> cases d <;> cases e <;> cases f <;> cases g <;>
    cases h <;> (norm_num [bitVal]; decide)

lemma c9_aux : ∀ (n : Nat) (v : List Bool), v.length ≤ n →
    bytesToBools (boolsToBytes v) = v ++ List.replicate ((8 - v.length % 8) % 8) false := by
  intro n
  induction n with
  | zero =>
    intro v hv
    have hnil : v = [] := List.length_eq_zero.mp (by omega)
    subst hnil; rfl
  | succ n ih =>
    intro v hv
    rcases v with _ | ⟨a, v⟩
    · rfl
    rcases v with _ | ⟨b, v⟩
    · cases a <;> rfl
    rcases v with _ | ⟨c, v⟩
    · cases a <;> cases b <;> rfl
    rcases v with _ | ⟨d, v⟩
    · cases a <;> cases b <;> cases c <;> rfl
    rcases v with _ | ⟨e, v⟩
    · cases a <;> cases b <;> cases c <;> cases d <;> rfl
    rcases v with _ | ⟨f, v⟩
    · cases a <;> cases b <;> cases c <;> cases d <;> cases e <;> rfl
    rcases v with _ | ⟨g, v⟩
    · cases a <;> cases b <;> cases c <;> cases d <;> cases e <;> cases f <;> rfl
    rcases v with _ | ⟨h, t⟩
    · cases a <;> cases b <;> cases c <;> cases d <;> cases e <;> cases f <;> cases g <;> rfl
    have hlen : (a::b::c::d::e::f::g::h::t).length = t.length + 8 := by
      simp [List.length_cons]
    have ht : t.length ≤ n := by
      rw [hlen] at hv; omega
    rw [boolsToBytes_chunk, bytesToBools_cons, byteBits_byteAt_chunk, ih t ht]
    have hmod : (a::b::c::d::e::f::g::h::t).length % 8 = t.length % 8 := by
      rw [hlen]; omega
    rw [hmod]
    simp [List.cons_append]

/-- C9: `bytes_to_bools ∘ bools_to_bytes` returns the input bool vector
padded with `false` entries up to the next multiple of 8; in particular it is
the identity on vectors whose length is a multiple of 8. -/
theorem c9_bools_bytes_roundtrip (v : List Bool) :
    bytesToBools (boolsToBytes v) = v ++ List.replicate ((8 - v.length % 8) % 8) false ∧
    (v.length % 8 = 0 → bytesToBools (boolsToBytes v) = v) := by
  have h := c9_aux v.length v (le_refl _)
  refine ⟨h, ?_⟩
  intro h0
  rw [h, h0]
  simp

/-- C9 witness: a 3-bit vector comes back with five `false` entries appended;
an 8-bit vector round-trips unchanged. -/
theorem c9_bools_bytes_roundtrip_witness :
    bytesToBools (boolsToBytes [true, false, true]) =
      [true, false, true] ++ List.replicate 5 false ∧
    bytesToBools (boolsToBytes [true, false, true, false, true, false, true, false]) =
      [true, false, true, false, true, false, true, false] := by
  refine ⟨?_, (c9_bools_bytes_roundtrip _).2 (by decide)⟩
  exact (c9_bools_bytes_roundtrip [true, false, true]).1.trans (by decide)

end Mpz
